import Mathlib

/-!
# Verification of the batch rename planner (`renomeador_lote.py`)

This file gives a shallow embedding of the core of `renomeador_lote.py`:
the name-transformation pipeline (`slugify_name`, `apply_transformations`,
`compute_new_name_for_path`), the plan builder (`build_rename_plans` in its
non-recursive and recursive branches), the conflict detector
(`detect_conflicts`), the execution orderer (`sort_key` and the final sort),
the executor (`execute_plans`) and the post-planning control flow of `main`.

Modelling conventions:

* A filesystem path is a list of path segments (`FPath`).  `str(path)` is
  rendered by `path_str` (segments joined by `/`); `len(path.parts)` is the
  segment count (a constant offset from CPython's count, which also includes
  the anchor; the offset is the same for every path under one root, so every
  comparison of depths is preserved).
* The filesystem itself is a record of query functions (`FS`): `resolve`
  models `Path.resolve()` (canonicalisation, including symlinks),
  `path_exists` models `Path.exists()`, `is_dir`/`is_file` model
  `Path.is_dir()`/`Path.is_file()`, `iterdir` models `Path.iterdir()` and
  `walk` models the sequence of `(dirpath, dirs, files)` triples produced by
  `os.walk`.  The walker is an external collaborator; its output is taken as
  given.
* Python strings are Lean `String`s, but all manipulation is done on the
  underlying `List Char` so that every definition evaluates inside the
  kernel.  `str.lower()` is modelled by `Char.toLower` (exact on ASCII, which
  covers every character class the program's own transformations introduce),
  `str.strip()` by stripping the ASCII whitespace class,
  `unicodedata.normalize("NFKD")` by a decomposition table for the Latin
  letters the tool is aimed at (accents used in Portuguese file names) and
  `unicodedata.combining` by the combining-diacritics block U+0300..U+036F.
* `re.sub` (the only regex entry point the program uses) is modelled by a
  backtracking matcher over a fragment of Python's pattern syntax: literals,
  `.`, escapes `\d`, `\w`, `\s` and escaped metacharacters, numbered groups
  `( )`, alternation `|` and the quantifiers `*`, `+`, `?`.  Constructs
  outside the fragment are rejected by the pattern parser, which plays the
  role of `re.error`.  Matching preference is Python's: leftmost position,
  earlier alternative first, greedy quantifiers, and (as in Python >= 3.7)
  an empty match is substituted at every position where no longer match
  starts.  Unmatched groups capture nothing; a group reference in the
  template whose number exceeds the pattern's group count is `re.error`.
* Python's `list.sort` is a stable sort; it is modelled by
  `List.insertionSort` over the non-strict key order, which is also stable.
-/

namespace Renomeador

/-! ## Characters and strings -/

/-- The characters stripped by Python's `str.strip()` (ASCII whitespace). -/
def is_py_space (c : Char) : Bool :=
  c = ' ' || c = '\t' || c = '\n' || c = '\x0d' || c = '\x0b' || c = '\x0c'

/-- Strip `is_py_space` characters from both ends of a character list. -/
def py_strip_chars (s : List Char) : List Char :=
  ((s.dropWhile is_py_space).reverse.dropWhile is_py_space).reverse

/-- Model of Python `str.strip()` with no arguments. -/
def py_strip (s : String) : String :=
  String.mk (py_strip_chars s.data)

/-- Model of Python `str.lower()` (exact on ASCII). -/
def lower_str (s : String) : String :=
  String.mk (s.data.map Char.toLower)

/-- Model of Python `str.replace(a, b)` for one-character `a` and `b`. -/
def replace_char (a b : Char) (s : String) : String :=
  String.mk (s.data.map fun c => if c = a then b else c)

/-- Code-point lexicographic comparison of character lists, i.e. Python's
`<=` on strings. -/
def char_list_le : List Char → List Char → Bool
  | [], _ => true
  | _ :: _, [] => false
  | a :: as, b :: bs => if a = b then char_list_le as bs else decide (a < b)

/-- Python's `<=` on strings, as a proposition. -/
def str_le (a b : String) : Prop := char_list_le a.data b.data = true

instance : DecidableRel str_le := fun a b => by
  unfold str_le; infer_instance

theorem char_list_le_total (a b : List Char) :
    char_list_le a b = true ∨ char_list_le b a = true := by
  induction a generalizing b with
  | nil => left; rfl
  | cons x xs ih =>
    cases b with
    | nil => right; rfl
    | cons y ys =>
      by_cases hxy : x = y
      · subst hxy
        simpa [char_list_le] using ih ys
      · rcases lt_trichotomy x y with h | h | h
        · left; simp [char_list_le, hxy, h]
        · exact absurd h hxy
        · right
          simp [char_list_le, Ne.symm hxy, h]

theorem char_list_le_trans {a b c : List Char}
    (hab : char_list_le a b = true) (hbc : char_list_le b c = true) :
    char_list_le a c = true := by
  induction a generalizing b c with
  | nil => rfl
  | cons x xs ih =>
    cases b with
    | nil => simp [char_list_le] at hab
    | cons y ys =>
      cases c with
      | nil => simp [char_list_le] at hbc
      | cons z zs =>
        by_cases hxy : x = y <;> by_cases hyz : y = z
        · subst hxy; subst hyz
          simp only [char_list_le, if_pos rfl] at hab hbc ⊢
          exact ih hab hbc
        · subst hxy
          simp only [char_list_le, if_pos rfl] at hab
          simp only [char_list_le, if_neg hyz] at hbc ⊢
          exact hbc
        · subst hyz
          simp only [char_list_le, if_neg hxy] at hab ⊢
          exact hab
        · simp only [char_list_le, if_neg hxy] at hab
          simp only [char_list_le, if_neg hyz] at hbc
          have hlt : x < z := lt_trans (of_decide_eq_true hab) (of_decide_eq_true hbc)
          by_cases hxz : x = z
          · subst hxz; exact absurd hlt (lt_irrefl x)
          · simp [char_list_le, hxz, hlt]

theorem str_le_total (a b : String) : str_le a b ∨ str_le b a :=
  char_list_le_total a.data b.data

theorem str_le_trans {a b c : String} (hab : str_le a b) (hbc : str_le b c) :
    str_le a c :=
  char_list_le_trans hab hbc

/-- `name.startswith "."` on the first character. -/
def starts_with_dot (s : String) : Bool :=
  match s.data with
  | [] => false
  | c :: _ => c = '.'

/-! ## Accent stripping (`strip_accents`)

`unicodedata.normalize("NFKD", s)` followed by dropping combining marks,
modelled by a decomposition table for the precomposed Latin letters the tool
targets (Portuguese names); every other character decomposes to itself. -/

/-- NFKD decomposition table for the Latin letters relevant to the tool. -/
def nfkd_char (c : Char) : List Char :=
  if c = 'á' then ['a', '́'] else
  if c = 'à' then ['a', '̀'] else
  if c = 'â' then ['a', '̂'] else
  if c = 'ã' then ['a', '̃'] else
  if c = 'ä' then ['a', '̈'] else
  if c = 'é' then ['e', '́'] else
  if c = 'è' then ['e', '̀'] else
  if c = 'ê' then ['e', '̂'] else
  if c = 'í' then ['i', '́'] else
  if c = 'î' then ['i', '̂'] else
  if c = 'ó' then ['o', '́'] else
  if c = 'ô' then ['o', '̂'] else
  if c = 'õ' then ['o', '̃'] else
  if c = 'ö' then ['o', '̈'] else
  if c = 'ú' then ['u', '́'] else
  if c = 'û' then ['u', '̂'] else
  if c = 'ü' then ['u', '̈'] else
  if c = 'ç' then ['c', '̧'] else
  if c = 'Á' then ['A', '́'] else
  if c = 'À' then ['A', '̀'] else
  if c = 'Â' then ['A', '̂'] else
  if c = 'Ã' then ['A', '̃'] else
  if c = 'É' then ['E', '́'] else
  if c = 'Ê' then ['E', '̂'] else
  if c = 'Í' then ['I', '́'] else
  if c = 'Ó' then ['O', '́'] else
  if c = 'Ô' then ['O', '̂'] else
  if c = 'Õ' then ['O', '̃'] else
  if c = 'Ú' then ['U', '́'] else
  if c = 'Ç' then ['C', '̧'] else
  [c]

/-- `unicodedata.combining(c) != 0`, restricted to the combining-diacritics
block produced by `nfkd_char`. -/
def combining (c : Char) : Bool :=
  0x300 ≤ c.toNat && c.toNat ≤ 0x36F

/-- `strip_accents` from the source: NFKD-decompose, drop combining marks. -/
def strip_accents (s : String) : String :=
  String.mk ((s.data.flatMap nfkd_char).filter (fun c => !combining c))

/-! ## The slug algorithm (`slugify_name`) -/

/-- Collapse runs of two or more `c`s into a single `c`
(`re.sub(r"c{2,}", "c", s)` for a literal character `c`). -/
def collapse_runs (c : Char) : List Char → List Char
  | [] => []
  | [a] => [a]
  | a :: b :: rest =>
    if a = c && b = c then collapse_runs c (b :: rest)
    else a :: collapse_runs c (b :: rest)

/-- `s.strip("_-")`: drop leading and trailing underscores and hyphens. -/
def strip_edge_seps (s : List Char) : List Char :=
  ((s.dropWhile (fun c => c = '_' || c = '-')).reverse.dropWhile
    (fun c => c = '_' || c = '-')).reverse

/-- `slugify_name` from the source: strip accents, optionally lowercase,
replace spaces by `_` (or `-`), remove characters outside
`[a-zA-Z0-9_\-]` plus optionally `.`, collapse runs of `_` and `-`,
strip edge separators, fall back to `"item"`. -/
def slugify_name (name : String) (lower spaces_to_underscore keep_dots : Bool) :
    String :=
  let s := strip_accents name
  let s := if lower then lower_str s else s
  let s := if spaces_to_underscore then replace_char ' ' '_' s
           else replace_char ' ' '-' s
  let allowed : Char → Bool := fun c =>
    c.isAlpha || c.isDigit || c = '_' || c = '-' || (keep_dots && c = '.')
  let s := String.mk (s.data.filter allowed)
  let s := String.mk (collapse_runs '_' s.data)
  let s := String.mk (collapse_runs '-' s.data)
  let s := String.mk (strip_edge_seps s.data)
  if s = "" then "item" else s

end Renomeador

/-! ## A model of Python `re.sub`

The program's only regex entry point is `re.sub(pattern, repl, name)`.
The fragment modelled: literal characters, `.`, the escapes `\d`, `\w`,
`\s`, escaped metacharacters, numbered groups, alternation and the
quantifiers `*`, `+`, `?` on the pattern side; literal characters, `\\`
and single-digit group references `\1`..`\9` on the template side.
Anything outside the fragment is rejected by the parsers, which is the
model of `re.error` (invalid patterns also raise `re.error` in Python).
-/

namespace PyRe

/-- Abstract syntax of the modelled pattern fragment. -/
inductive RE where
  | eps : RE
  | chr (p : Char → Bool) : RE
  | cat (a b : RE) : RE
  | alt (a b : RE) : RE
  | star (a : RE) : RE
  | group (idx : Nat) (a : RE) : RE

/-- Capture environment: group number to captured characters, most recent
binding first (as in Python, a repeated group keeps its last capture). -/
abbrev Caps := List (Nat × List Char)

/-- The capture of group `n`, if the group has matched. -/
def cap_get (caps : Caps) (n : Nat) : Option (List Char) :=
  List.lookup n caps

/-- Record a capture for group `n`. -/
def cap_set (caps : Caps) (n : Nat) (v : List Char) : Caps :=
  (n, v) :: caps

/-- Structural size of a pattern, used only to pick a sufficient fuel. -/
def re_size : RE → Nat
  | .eps => 1
  | .chr _ => 1
  | .cat a b => re_size a + re_size b + 1
  | .alt a b => re_size a + re_size b + 1
  | .star a => re_size a + 1
  | .group _ a => re_size a + 1

/-- Backtracking matcher.  `mtch f r s caps` returns every way `r` can match
a prefix of `s`, as `(captures, remaining input)` pairs, in Python's
backtracking preference order (earlier alternative first, greedy
quantifiers, and a `*` iteration must consume input, as in CPython's
engine).  The fuel `f` only bounds the recursion depth: each nesting level
of the search consumes one unit, and callers pass more fuel than any branch
of the search can use, so the `f = 0` case is unreachable from the
entry points below. -/
def mtch : Nat → RE → List Char → Caps → List (Caps × List Char)
  | 0, _, _, _ => []
  | _ + 1, .eps, s, caps => [(caps, s)]
  | _ + 1, .chr _, [], _ => []
  | _ + 1, .chr p, c :: cs, caps => if p c then [(caps, cs)] else []
  | f + 1, .cat a b, s, caps =>
    (mtch f a s caps).flatMap (fun pr => mtch f b pr.2 pr.1)
  | f + 1, .alt a b, s, caps => mtch f a s caps ++ mtch f b s caps
  | f + 1, .group n a, s, caps =>
    (mtch f a s caps).map
      (fun pr => (cap_set pr.1 n (s.take (s.length - pr.2.length)), pr.2))
  | f + 1, .star a, s, caps =>
    ((mtch f a s caps).filter (fun pr => pr.2.length < s.length)).flatMap
      (fun pr => mtch f (.star a) pr.2 pr.1) ++ [(caps, s)]

/-- Sufficient fuel for `mtch` on pattern `r` and input `s`: every path of
the search nests at most one level per pattern node per consumed character. -/
def fuel_for (r : RE) (s : List Char) : Nat :=
  (re_size r + 1) * (s.length + 2)

/-- Python's preferred match of `r` at the start of `s`: the first result in
backtracking order. -/
def match_here (r : RE) (s : List Char) : Option (Caps × List Char) :=
  (mtch (fuel_for r s) r s []).head?

/-- One token of a parsed substitution template. -/
inductive Tok where
  | lit (c : Char)
  | grp (n : Nat)
deriving DecidableEq

/-- Parse a substitution template: literal characters, `\\`, and `\1`..`\9`
group references.  Any other escape (including a trailing backslash) is
`re.error`. -/
def parse_template : List Char → Option (List Tok)
  | [] => some []
  | c :: rest =>
    if c = '\\' then
      match rest with
      | [] => none
      | d :: rest' =>
        if d.isDigit && d ≠ '0' then
          (parse_template rest').map (fun ts => .grp (d.toNat - '0'.toNat) :: ts)
        else if d = '\\' then
          (parse_template rest').map (fun ts => .lit '\\' :: ts)
        else none
    else (parse_template rest).map (fun ts => .lit c :: ts)

/-- A template is valid for a pattern with `gc` groups when every group
reference names an existing group (otherwise Python raises `re.error`
"invalid group reference"). -/
def template_ok (gc : Nat) (ts : List Tok) : Bool :=
  ts.all fun t =>
    match t with
    | .lit _ => true
    | .grp n => 1 ≤ n && n ≤ gc

/-- Template expansion as the engine performs it (accumulator style). -/
def expand_go (caps : Caps) : List Tok → List Char → List Char
  | [], acc => acc.reverse
  | .lit c :: ts, acc => expand_go caps ts (c :: acc)
  | .grp n :: ts, acc =>
    expand_go caps ts (((cap_get caps n).getD []).reverse ++ acc)

/-- Template expansion, engine side. -/
def expand (caps : Caps) (ts : List Tok) : List Char :=
  expand_go caps ts []

/-- Template expansion as the spec describes it:  each token contributes
its literal character, or the capture of the referenced group, an unmatched
group contributing the empty string. -/
def spec_expand (caps : Caps) (ts : List Tok) : List Char :=
  (ts.map fun t =>
    match t with
    | .lit c => [c]
    | .grp n => (cap_get caps n).getD []).flatten

theorem expand_go_eq (caps : Caps) (ts : List Tok) (acc : List Char) :
    expand_go caps ts acc = acc.reverse ++ spec_expand caps ts := by
  induction ts generalizing acc with
  | nil => simp [expand_go, spec_expand]
  | cons t ts ih =>
    cases t with
    | lit c => simp [expand_go, spec_expand, ih]
    | grp n => simp [expand_go, spec_expand, ih]

theorem expand_eq_spec_expand (caps : Caps) (ts : List Tok) :
    expand caps ts = spec_expand caps ts := by
  simpa [expand] using expand_go_eq caps ts []

/-- Escaped metacharacters that stand for themselves. -/
def self_escapes : List Char :=
  ['\\', '.', '+', '*', '?', '(', ')', '|', '-', '[', ']', '^', '$',
   '\x7b', '\x7d']

/-- Characters that may not appear bare at an atom position. -/
def bad_bare : List Char :=
  ['*', '+', '?', ')', '|', '[', ']', '^', '$', '\x7b', '\x7d']

/-- Grammar level of the recursive-descent pattern parser. -/
inductive PMode where
  | palt : PMode
  | pcat : PMode
  | ppost : PMode
  | patom : PMode

/-- The recursive-descent pattern parser, one function for the four grammar
levels `alt := cat ('|' alt)?`, `cat := (post)*` (stopping at `)`/`|`/end),
`post := atom ('*'|'+'|'?')?`, `atom := group | escape | '.' | literal`.
State: fuel, grammar level, next unused group number, remaining input.
Every recursive call decrements the fuel, and the parser nests at most four
levels per consumed character, so the fuel passed by `parse_pattern` cannot
run out; the `0` case is unreachable from `parse_pattern`. -/
def parse_re : Nat → PMode → Nat → List Char → Option (RE × Nat × List Char)
  | 0, _, _, _ => none
  | f + 1, .palt, gc, s =>
    match parse_re f .pcat gc s with
    | none => none
    | some (r, gc', rest) =>
      match rest with
      | '|' :: rest' =>
        match parse_re f .palt gc' rest' with
        | none => none
        | some (r2, gc'', rest'') => some (.alt r r2, gc'', rest'')
      | _ => some (r, gc', rest)
  | f + 1, .pcat, gc, s =>
    match s with
    | [] => some (.eps, gc, [])
    | ')' :: _ => some (.eps, gc, s)
    | '|' :: _ => some (.eps, gc, s)
    | _ =>
      match parse_re f .ppost gc s with
      | none => none
      | some (r, gc', rest) =>
        match parse_re f .pcat gc' rest with
        | none => none
        | some (r2, gc'', rest') => some (.cat r r2, gc'', rest')
  | f + 1, .ppost, gc, s =>
    match parse_re f .patom gc s with
    | none => none
    | some (r, gc', rest) =>
      match rest with
      | '*' :: rest' => some (.star r, gc', rest')
      | '+' :: rest' => some (.cat r (.star r), gc', rest')
      | '?' :: rest' => some (.alt r .eps, gc', rest')
      | _ => some (r, gc', rest)
  | f + 1, .patom, gc, s =>
    match s with
    | [] => none
    | '(' :: rest =>
      match parse_re f .palt (gc + 1) rest with
      | none => none
      | some (r, gc', rest') =>
        match rest' with
        | ')' :: rest'' => some (.group (gc + 1) r, gc', rest'')
        | _ => none
    | '\\' :: e :: rest =>
      if e = 'd' then some (.chr Char.isDigit, gc, rest)
      else if e = 'w' then
        some (.chr (fun c => c.isAlphanum || c = '_'), gc, rest)
      else if e = 's' then some (.chr Renomeador.is_py_space, gc, rest)
      else if self_escapes.contains e then
        some (.chr (fun c => c = e), gc, rest)
      else none
    | ['\\'] => none
    | '.' :: rest => some (.chr (fun c => c ≠ '\n'), gc, rest)
    | c :: rest =>
      if bad_bare.contains c then none
      else some (.chr (fun x => x = c), gc, rest)

/-- Parse a full pattern; the result also carries the number of groups. -/
def parse_pattern (pat : String) : Option (RE × Nat) :=
  let s := pat.data
  match parse_re (4 * (s.length + 2)) .palt 0 s with
  | some (r, gc, []) => some (r, gc)
  | _ => none

/-- Work loop of `sub_scan`.  Every recursive call both decrements the fuel
and strictly shortens the input, so with fuel `s.length + 1` the fuel can
never reach `0` before the input is exhausted; the `0` case is unreachable
from `sub_scan`. -/
def sub_scan_go : Nat → RE → List Tok → List Char → List Char
  | 0, _, _, _ => []
  | _ + 1, r, ts, [] =>
    match match_here r [] with
    | some (caps, _) => expand caps ts
    | none => []
  | f + 1, r, ts, c :: cs =>
    match match_here r (c :: cs) with
    | none => c :: sub_scan_go f r ts cs
    | some (caps, rest) =>
      if rest.length < (c :: cs).length then
        expand caps ts ++ sub_scan_go f r ts rest
      else
        expand caps ts ++ c :: sub_scan_go f r ts cs

/-- The global substitution loop of `re.sub`: at each position substitute
the preferred match, or copy one character; an empty match substitutes and
then copies one character (Python >= 3.7 semantics). -/
def sub_scan (r : RE) (ts : List Tok) (s : List Char) : List Char :=
  sub_scan_go (s.length + 1) r ts s

/-- Model of `re.sub(pat, tmpl, s)`: `.error ()` models `re.error`
(invalid pattern, invalid template escape, or a group reference beyond the
pattern's group count), `.ok` the substituted string. -/
def py_re_sub (pat tmpl s : String) : Except Unit String :=
  match parse_pattern pat with
  | none => .error ()
  | some (r, gc) =>
    match parse_template tmpl.data with
    | none => .error ()
    | some ts =>
      if template_ok gc ts then .ok (String.mk (sub_scan r ts s.data))
      else .error ()

end PyRe

namespace Renomeador

/-! ## The name transformer (`apply_transformations`) -/

/-- The recognised transformation options, assembled once per run from the
command line (`pref`/`suff` model the `prefix`/`suffix` options). -/
structure RenameOpts where
  spaces_to_underscore : Bool
  slugify : Bool
  lower : Bool
  pref : String
  suff : String
  regex_pattern : Option String
  regex_to : Option String
  no_keep_extension : Bool
deriving DecidableEq

/-- Stage 1 of `apply_transformations`: `re.sub(pattern, to or "", name)`
guarded by `try`/`except re.error: pass` — on `re.error` the name is left
unchanged. -/
def regex_stage (pat : String) (to_opt : Option String) (name : String) :
    String :=
  match PyRe.py_re_sub pat (to_opt.getD "") name with
  | .ok s => s
  | .error _ => name

/-- `apply_transformations` from the source, stage for stage:
1. regex substitution over the whole current name (`regex_stage`);
2. full slug algorithm (always with `keep_dots=True`) when `slugify` is on,
   otherwise the independent space and lowercase substitutions;
3. prefix and suffix (skipped when empty, as `if prefix:`/`if suffix:`);
4. final strip, with the `"item"` fallback for an empty result.
The `keep_extension` parameter is accepted exactly as in the source, which
declares it and never reads it. -/
def apply_transformations (opts : RenameOpts) (original_name : String)
    (keep_extension : Bool) : String :=
  let name := original_name
  let name :=
    match opts.regex_pattern with
    | none => name
    | some pat => regex_stage pat opts.regex_to name
  let name :=
    if opts.slugify then
      slugify_name name opts.lower opts.spaces_to_underscore true
    else
      let name := if opts.spaces_to_underscore then replace_char ' ' '_' name
                  else name
      if opts.lower then lower_str name else name
  let name := if opts.pref ≠ "" then opts.pref ++ name else name
  let name := if opts.suff ≠ "" then name ++ opts.suff else name
  let name := py_strip name
  if name = "" then "item" else name

/-! ## Paths and the filesystem model -/

/-- A filesystem path as its list of segments. -/
abbrev FPath := List String

/-- `path.name`: the final path component. -/
def last_seg (p : FPath) : String := p.getLast?.getD ""

/-- `path.with_name(n)`: replace the final component. -/
def with_name (p : FPath) (n : String) : FPath := p.dropLast ++ [n]

/-- `str(path)`: segments joined by `/`. -/
def path_str : FPath → String
  | [] => ""
  | [a] => a
  | a :: rest => a ++ "/" ++ path_str rest

/-- Index of the last `.` in a character list, if any. -/
def rfind_dot (s : List Char) : Option Nat :=
  (s.reverse.findIdx? (fun c => c = '.')).map (fun k => s.length - 1 - k)

/-- `pathlib`'s `(stem, suffix)` split of a file name: the suffix starts at
the last dot, provided that dot is neither the first nor the last
character; otherwise the suffix is empty. -/
def split_stem_ext (name : String) : String × String :=
  let s := name.data
  match rfind_dot s with
  | some i =>
    if 0 < i ∧ i < s.length - 1 then (String.mk (s.take i), String.mk (s.drop i))
    else (name, "")
  | none => (name, "")

/-- One `(dirpath, dirnames, filenames)` triple of `os.walk`. -/
structure WalkTriple where
  dirpath : FPath
  dirnames : List String
  filenames : List String
deriving DecidableEq

/-- The filesystem, as the query functions the program uses.  `resolve`
models `Path.resolve()` (canonical, symlink-free form), `walk` the output
of `os.walk` (an external collaborator, taken as given). -/
structure FS where
  resolve : FPath → FPath
  path_exists : FPath → Bool
  is_dir : FPath → Bool
  is_file : FPath → Bool
  iterdir : FPath → List FPath
  walk : FPath → List WalkTriple

/-- `is_hidden_path`: the name starts with a dot. -/
def is_hidden_path (p : FPath) : Bool := starts_with_dot (last_seg p)

/-- `is_within_root`: `target.resolve().relative_to(root.resolve())`
succeeds exactly when the resolved root is a segment-prefix of the resolved
target. -/
def is_within_root (fs : FS) (root target : FPath) : Bool :=
  (fs.resolve root).isPrefixOf (fs.resolve target)

/-- `prune_dirs_inplace`: drop pruned names and (unless `include_hidden`)
hidden names from a directory list. -/
def prune_dirs_filter (dirs : List String) (prune_names : List String)
    (include_hidden : Bool) : List String :=
  dirs.filter (fun d =>
    !(prune_names.contains d) && (include_hidden || !starts_with_dot d))

/-- `compute_new_name_for_path`: files keep their extension and transform
only the stem, unless `no_keep_extension`; directories (and files with
`no_keep_extension`) transform the whole name. -/
def compute_new_name_for_path (fs : FS) (opts : RenameOpts) (p : FPath) :
    String :=
  if fs.is_file p && !opts.no_keep_extension then
    let se := split_stem_ext (last_seg p)
    apply_transformations opts se.1 true ++ se.2
  else
    apply_transformations opts (last_seg p) false

/-- A rename plan: source and destination path. -/
structure RenamePlan where
  src : FPath
  dst : FPath
deriving DecidableEq

/-! ## The plan builder (`build_rename_plans`) -/

/-- One candidate of the non-recursive branch: the hidden and
include-files/include-dirs filters, then a plan exactly when the
transformed name differs. -/
def nonrec_candidate (fs : FS) (opts : RenameOpts)
    (include_files include_dirs include_hidden : Bool) (p : FPath) :
    Option RenamePlan :=
  if !include_hidden && is_hidden_path p then none
  else if fs.is_dir p && !include_dirs then none
  else if fs.is_file p && !include_files then none
  else if compute_new_name_for_path fs opts p = last_seg p then none
  else some ⟨p, with_name p (compute_new_name_for_path fs opts p)⟩

/-- The non-recursive branch's sort order: `str(src).lower()` only. -/
def nonrec_le (a b : RenamePlan) : Prop :=
  str_le (lower_str (path_str a.src)) (lower_str (path_str b.src))

instance : DecidableRel nonrec_le := fun a b => by
  unfold nonrec_le; infer_instance

instance : IsTotal RenamePlan nonrec_le :=
  ⟨fun a b => str_le_total _ _⟩

instance : IsTrans RenamePlan nonrec_le :=
  ⟨fun _ _ _ => str_le_trans⟩

/-- The non-recursive branch of `build_rename_plans`: immediate children
only, sorted by lowercased source path; it produces no warnings. -/
def build_plans_nonrec (fs : FS) (root : FPath) (opts : RenameOpts)
    (include_files include_dirs include_hidden : Bool) : List RenamePlan :=
  let rootR := fs.resolve root
  let plans := (fs.iterdir rootR).filterMap
    (nonrec_candidate fs opts include_files include_dirs include_hidden)
  plans.insertionSort nonrec_le

/-- One candidate of the recursive branch (the body shared by the file loop
and the directory loop): hidden filter, the within-root guard, then a plan
exactly when the transformed name differs. -/
def rec_candidate (fs : FS) (opts : RenameOpts) (include_hidden : Bool)
    (rootR current : FPath) (nm : String) : Option RenamePlan :=
  if !include_hidden && is_hidden_path (current ++ [nm]) then none
  else if !is_within_root fs rootR (current ++ [nm]) then none
  else if compute_new_name_for_path fs opts (current ++ [nm]) ≠
      last_seg (current ++ [nm]) then
    some ⟨current ++ [nm],
      with_name (current ++ [nm])
        (compute_new_name_for_path fs opts (current ++ [nm]))⟩
  else none

/-- The warning the recursive branch emits for an out-of-root candidate. -/
def out_of_root_warning (p : FPath) : String :=
  "ignorado (fora do root): " ++ path_str p

/-- The warning side of `rec_candidate`: a candidate that passes the hidden
filter but fails the within-root guard is reported. -/
def rec_warn (fs : FS) (include_hidden : Bool) (rootR current : FPath)
    (nm : String) : Option String :=
  let p := current ++ [nm]
  if !include_hidden && is_hidden_path p then none
  else if !is_within_root fs rootR p then some (out_of_root_warning p)
  else none

/-- The plans one walk triple contributes: files first, then the pruned
directory list, mirroring the two loops of the source. -/
def triple_plans (fs : FS) (opts : RenameOpts)
    (include_files include_dirs include_hidden : Bool)
    (prune_names : List String) (rootR : FPath) (t : WalkTriple) :
    List RenamePlan :=
  (if include_files then
      t.filenames.filterMap (rec_candidate fs opts include_hidden rootR t.dirpath)
    else [])
  ++ (if include_dirs then
      (prune_dirs_filter t.dirnames prune_names include_hidden).filterMap
        (rec_candidate fs opts include_hidden rootR t.dirpath)
    else [])

/-- The warnings one walk triple contributes, in the same loop order. -/
def triple_warns (fs : FS) (include_files include_dirs include_hidden : Bool)
    (prune_names : List String) (rootR : FPath) (t : WalkTriple) :
    List String :=
  (if include_files then
      t.filenames.filterMap (rec_warn fs include_hidden rootR t.dirpath)
    else [])
  ++ (if include_dirs then
      (prune_dirs_filter t.dirnames prune_names include_hidden).filterMap
        (rec_warn fs include_hidden rootR t.dirpath)
    else [])

/-- `sort_key` from the source: `(is_dir, -len(src.parts),
str(src).lower())`. -/
def sort_key (fs : FS) (plan : RenamePlan) : Nat × Int × String :=
  (if fs.is_dir plan.src then 1 else 0,
   -(plan.src.length : Int),
   lower_str (path_str plan.src))

/-- Non-strict lexicographic order on sort keys. -/
def key_le (a b : Nat × Int × String) : Prop :=
  a.1 < b.1 ∨ (a.1 = b.1 ∧
    (a.2.1 < b.2.1 ∨ (a.2.1 = b.2.1 ∧ str_le a.2.2 b.2.2)))

instance : DecidableRel key_le := fun a b => by
  unfold key_le; infer_instance

theorem key_le_total (a b : Nat × Int × String) : key_le a b ∨ key_le b a := by
  unfold key_le
  rcases lt_trichotomy a.1 b.1 with h1 | h1 | h1
  · exact Or.inl (Or.inl h1)
  · rcases lt_trichotomy a.2.1 b.2.1 with h2 | h2 | h2
    · exact Or.inl (Or.inr ⟨h1, Or.inl h2⟩)
    · rcases str_le_total a.2.2 b.2.2 with h3 | h3
      · exact Or.inl (Or.inr ⟨h1, Or.inr ⟨h2, h3⟩⟩)
      · exact Or.inr (Or.inr ⟨h1.symm, Or.inr ⟨h2.symm, h3⟩⟩)
    · exact Or.inr (Or.inr ⟨h1.symm, Or.inl h2⟩)
  · exact Or.inr (Or.inl h1)

theorem key_le_trans {a b c : Nat × Int × String}
    (hab : key_le a b) (hbc : key_le b c) : key_le a c := by
  unfold key_le at *
  rcases hab with h1 | ⟨h1, hab2⟩
  · rcases hbc with h2 | ⟨h2, _⟩
    · exact Or.inl (lt_trans h1 h2)
    · exact Or.inl (h2 ▸ h1)
  · rcases hbc with h2 | ⟨h2, hbc2⟩
    · exact Or.inl (h1 ▸ h2)
    · refine Or.inr ⟨h1.trans h2, ?_⟩
      rcases hab2 with h3 | ⟨h3, hab3⟩
      · rcases hbc2 with h4 | ⟨h4, _⟩
        · exact Or.inl (lt_trans h3 h4)
        · exact Or.inl (h4 ▸ h3)
      · rcases hbc2 with h4 | ⟨h4, hbc3⟩
        · exact Or.inl (h3 ▸ h4)
        · exact Or.inr ⟨h3.trans h4, str_le_trans hab3 hbc3⟩

/-- The recursive branch's plan order, by `sort_key`. -/
def rec_le (fs : FS) (a b : RenamePlan) : Prop :=
  key_le (sort_key fs a) (sort_key fs b)

instance (fs : FS) : DecidableRel (rec_le fs) := fun a b => by
  unfold rec_le; infer_instance

instance (fs : FS) : IsTotal RenamePlan (rec_le fs) :=
  ⟨fun a b => key_le_total _ _⟩

instance (fs : FS) : IsTrans RenamePlan (rec_le fs) :=
  ⟨fun _ _ _ => key_le_trans⟩

/-- The recursive branch of `build_rename_plans`: walk the tree, collect
plans and out-of-root warnings per triple, then sort the plans by
`sort_key` (files before directories, deeper before shallower, then
lowercased source path). -/
def build_plans_rec (fs : FS) (root : FPath) (opts : RenameOpts)
    (include_files include_dirs include_hidden : Bool)
    (prune_names : List String) : List RenamePlan × List String :=
  let rootR := fs.resolve root
  let ts := fs.walk rootR
  let plans := (ts.map
    (triple_plans fs opts include_files include_dirs include_hidden
      prune_names rootR)).flatten
  let warns := (ts.map
    (triple_warns fs include_files include_dirs include_hidden
      prune_names rootR)).flatten
  (plans.insertionSort (rec_le fs), warns)

/-- `build_rename_plans`: dispatch on `recursive`. -/
def build_rename_plans (fs : FS) (root : FPath) (opts : RenameOpts)
    (recursive include_files include_dirs include_hidden : Bool)
    (prune_names : List String) : List RenamePlan × List String :=
  if recursive then
    build_plans_rec fs root opts include_files include_dirs include_hidden
      prune_names
  else
    (build_plans_nonrec fs root opts include_files include_dirs
      include_hidden, [])

/-! ## The conflict detector (`detect_conflicts`) -/

/-- `str(path.resolve())`: the canonical key used by the detector's map. -/
def res_key (fs : FS) (p : FPath) : String := path_str (fs.resolve p)

/-- The destination-collision message. -/
def conflict_msg (plan : RenamePlan) (first_src : FPath) : String :=
  "conflito: " ++ path_str plan.src ++ " e " ++ path_str first_src ++
    " virariam " ++ path_str plan.dst

/-- The target-exists message. -/
def target_exists_msg (plan : RenamePlan) : String :=
  "destino ja existe: " ++ path_str plan.dst ++ " (origem: " ++
    path_str plan.src ++ ")"

/-- The destination-collision check of one step: the canonical destination
is already in the first-seen map, bound to a source with a different
canonical path. -/
def dc_e1 (fs : FS) (seen : List (String × FPath)) (plan : RenamePlan) :
    List String :=
  match seen.lookup (res_key fs plan.dst) with
  | some q =>
    if res_key fs q ≠ res_key fs plan.src then [conflict_msg plan q] else []
  | none => []

/-- The target-exists check of one step: the destination exists and does
not resolve to the plan's own source. -/
def dc_e2 (fs : FS) (plan : RenamePlan) : List String :=
  if fs.path_exists plan.dst && fs.resolve plan.dst ≠ fs.resolve plan.src then
    [target_exists_msg plan]
  else []

/-- The first-seen map update: record the plan's source under its canonical
destination, except in the collision branch (which leaves the map alone,
exactly as the source's `else`). -/
def dc_upd (fs : FS) (seen : List (String × FPath)) (plan : RenamePlan) :
    List (String × FPath) :=
  match seen.lookup (res_key fs plan.dst) with
  | some q =>
    if res_key fs q ≠ res_key fs plan.src then seen
    else (res_key fs plan.dst, plan.src) :: seen
  | none => (res_key fs plan.dst, plan.src) :: seen

/-- The detector's loop over the plans, threading the first-seen map. -/
def dc_go (fs : FS) : List RenamePlan → List (String × FPath) → List String
  | [], _ => []
  | plan :: ps, seen =>
    dc_e1 fs seen plan ++ dc_e2 fs plan ++ dc_go fs ps (dc_upd fs seen plan)

/-- `detect_conflicts` from the source. -/
def detect_conflicts (fs : FS) (plans : List RenamePlan) : List String :=
  dc_go fs plans []

/-! ## The executor (`execute_plans`) and `main`'s tail -/

/-- `execute_plans`: sequential, one rename per plan; a failure is counted
and the loop continues.  The filesystem's reaction to one rename is the
oracle `do_rename` (`none` models a raised `OSError`); the result is the
final state plus `(ok, err)` counts. -/
def execute_plans {St : Type} (do_rename : St → RenamePlan → Option St) :
    St → List RenamePlan → St × Nat × Nat
  | st, [] => (st, 0, 0)
  | st, plan :: ps =>
    match do_rename st plan with
    | some st' =>
      let r := execute_plans do_rename st' ps
      (r.1, r.2.1 + 1, r.2.2)
    | none =>
      let r := execute_plans do_rename st ps
      (r.1, r.2.1, r.2.2 + 1)

/-- The tail of `main` after `build_rename_plans` returned `plans`:
empty plan list exits 0; a non-empty conflict report exits 3 before any
rename; dry-run exits 0; a declined confirmation exits 1; otherwise the
plans are executed and the run exits 0 exactly when no rename failed
(else 4).  The second component is the final filesystem state, which only
`execute_plans` may change. -/
def main_after_planning {St : Type} (fs : FS)
    (do_rename : St → RenamePlan → Option St) (st : St)
    (plans : List RenamePlan) (dry_run confirmed : Bool) : Nat × St :=
  if plans = [] then (0, st)
  else if detect_conflicts fs plans ≠ [] then (3, st)
  else if dry_run then (0, st)
  else if !confirmed then (1, st)
  else
    let r := execute_plans do_rename st plans
    (if r.2.2 = 0 then 0 else 4, r.1)

/-! ## Helper lemmas -/

theorem last_seg_with_name (p : FPath) (n : String) :
    last_seg (with_name p n) = n := by
  simp [last_seg, with_name, List.getLast?_concat]

theorem dropLast_with_name (p : FPath) (n : String) :
    (with_name p n).dropLast = p.dropLast := by
  simp [with_name, List.dropLast_concat]

theorem mem_insertionSort {r : RenamePlan → RenamePlan → Prop}
    [DecidableRel r] {l : List RenamePlan} {x : RenamePlan} :
    x ∈ l.insertionSort r ↔ x ∈ l :=
  (List.perm_insertionSort r l).mem_iff

theorem nonrec_candidate_some {fs : FS} {opts : RenameOpts}
    {incF incD incH : Bool} {p : FPath} {plan : RenamePlan}
    (h : nonrec_candidate fs opts incF incD incH p = some plan) :
    plan.src = p ∧
    plan.dst = with_name p (compute_new_name_for_path fs opts p) ∧
    compute_new_name_for_path fs opts p ≠ last_seg p := by
  unfold nonrec_candidate at h
  split_ifs at h with h1 h2 h3 h4
  exact ⟨congrArg RenamePlan.src (Option.some.inj h).symm,
    congrArg RenamePlan.dst (Option.some.inj h).symm, h4⟩

theorem rec_candidate_some {fs : FS} {opts : RenameOpts} {incH : Bool}
    {rootR current : FPath} {nm : String} {plan : RenamePlan}
    (h : rec_candidate fs opts incH rootR current nm = some plan) :
    plan.src = current ++ [nm] ∧
    plan.dst = with_name plan.src (compute_new_name_for_path fs opts plan.src) ∧
    compute_new_name_for_path fs opts plan.src ≠ last_seg plan.src ∧
    is_within_root fs rootR plan.src = true := by
  unfold rec_candidate at h
  split_ifs at h with h1 h2 h3
  have hsrc : plan.src = current ++ [nm] :=
    congrArg RenamePlan.src (Option.some.inj h).symm
  refine ⟨hsrc, ?_, ?_, ?_⟩
  · have := congrArg RenamePlan.dst (Option.some.inj h).symm
    simpa [hsrc] using this
  · simpa [hsrc] using h3
  · simp only [Bool.not_eq_true] at h2
    rw [hsrc]
    simpa using h2

theorem mem_build_plans_nonrec {fs : FS} {root : FPath} {opts : RenameOpts}
    {incF incD incH : Bool} {plan : RenamePlan}
    (h : plan ∈ build_plans_nonrec fs root opts incF incD incH) :
    ∃ p ∈ fs.iterdir (fs.resolve root),
      nonrec_candidate fs opts incF incD incH p = some plan := by
  unfold build_plans_nonrec at h
  rw [mem_insertionSort, List.mem_filterMap] at h
  exact h

theorem mem_triple_plans {fs : FS} {opts : RenameOpts}
    {incF incD incH : Bool} {prune_names : List String} {rootR : FPath}
    {t : WalkTriple} {plan : RenamePlan}
    (h : plan ∈ triple_plans fs opts incF incD incH prune_names rootR t) :
    ∃ nm, rec_candidate fs opts incH rootR t.dirpath nm = some plan := by
  unfold triple_plans at h
  rw [List.mem_append] at h
  rcases h with h | h
  · split_ifs at h
    · rw [List.mem_filterMap] at h
      obtain ⟨nm, _, hnm⟩ := h
      exact ⟨nm, hnm⟩
    · simp at h
  · split_ifs at h
    · rw [List.mem_filterMap] at h
      obtain ⟨nm, _, hnm⟩ := h
      exact ⟨nm, hnm⟩
    · simp at h

theorem mem_build_plans_rec {fs : FS} {root : FPath} {opts : RenameOpts}
    {incF incD incH : Bool} {prune_names : List String} {plan : RenamePlan}
    (h : plan ∈ (build_plans_rec fs root opts incF incD incH prune_names).1) :
    ∃ t ∈ fs.walk (fs.resolve root), ∃ nm,
      rec_candidate fs opts incH (fs.resolve root) t.dirpath nm = some plan := by
  unfold build_plans_rec at h
  rw [mem_insertionSort, List.mem_flatten] at h
  obtain ⟨l, hl, hpl⟩ := h
  rw [List.mem_map] at hl
  obtain ⟨t, ht, rfl⟩ := hl
  exact ⟨t, ht, mem_triple_plans hpl⟩

/-- Any plan of either branch of the builder: its destination is its source
with the final component replaced by the transformed name, and the
transformed name differs from the original. -/
theorem mem_build_rename_plans {fs : FS} {root : FPath} {opts : RenameOpts}
    {recursive incF incD incH : Bool} {prune_names : List String}
    {plan : RenamePlan}
    (h : plan ∈ (build_rename_plans fs root opts recursive incF incD incH
      prune_names).1) :
    plan.dst = with_name plan.src (compute_new_name_for_path fs opts plan.src) ∧
    compute_new_name_for_path fs opts plan.src ≠ last_seg plan.src := by
  unfold build_rename_plans at h
  split_ifs at h with hrec
  · obtain ⟨t, _, nm, hc⟩ := mem_build_plans_rec h
    obtain ⟨_, hdst, hne, _⟩ := rec_candidate_some hc
    exact ⟨hdst, hne⟩
  · obtain ⟨p, _, hc⟩ := mem_build_plans_nonrec h
    obtain ⟨hsrc, hdst, hne⟩ := nonrec_candidate_some hc
    subst hsrc
    exact ⟨hdst, hne⟩

/-! ## Fixtures used by the concrete parts of the claims -/

/-- The neutral pipeline: every transformation option disabled. -/
def neutral_opts : RenameOpts := ⟨false, false, false, "", "", none, none, false⟩

/-- Slugify and lowercase enabled, space-to-underscore *not* enabled. -/
def slug_lower_opts : RenameOpts :=
  ⟨false, true, true, "", "", none, none, false⟩

/-- Slugify, lowercase and space-to-underscore enabled. -/
def slug_lower_und_opts : RenameOpts :=
  ⟨true, true, true, "", "", none, none, false⟩

/-- Lowercase only. -/
def lower_opts : RenameOpts := ⟨false, false, true, "", "", none, none, false⟩

/-- Suffix `"_x"` only (renames every entry). -/
def suffix_opts : RenameOpts := ⟨false, false, false, "", "_x", none, none, false⟩

/-- Regex `(a)|(b)` with template `[\1][\2]`, every other option off. -/
def re_demo_opts : RenameOpts :=
  ⟨false, false, false, "", "", some "(a)|(b)", some "[\\1][\\2]", false⟩

/-- A root holding one directory `A` and one file `B.txt`. -/
def fs_flat : FS :=
  ⟨id, fun _ => false,
   fun p => p = ["r", "A"],
   fun p => p = ["r", "B.txt"] || p = ["r", "My Report.PDF"] ||
     p = ["r", "v 1.2.txt"] || p = ["r", " notes"],
   fun p => if p = ["r"] then [["r", "A"], ["r", "B.txt"], ["r", " notes"]]
     else [],
   fun _ => []⟩

/-- A tree `root/X/f.txt` where both `X` and `f.txt` get planned. -/
def fs_tree : FS :=
  ⟨id, fun _ => false,
   fun p => p = ["root", "X"],
   fun p => p = ["root", "X", "f.txt"],
   fun _ => [],
   fun p => if p = ["root"] then
      [⟨["root"], ["X"], []⟩, ⟨["root", "X"], [], ["f.txt"]⟩] else []⟩

/-- A tree with two sibling directories `X` and `Y` under the root. -/
def fs_two_dirs : FS :=
  ⟨id, fun _ => false,
   fun p => p = ["root", "X"] || p = ["root", "Y"],
   fun _ => false,
   fun _ => [],
   fun p => if p = ["root"] then [⟨["root"], ["X", "Y"], []⟩] else []⟩

/-- A root whose child `Link` resolves outside the root (a symlink
escape); visible both to `iterdir` and to the walk. -/
def fs_escape : FS :=
  ⟨fun p => if p = ["r", "Link"] then ["etc", "x"] else p,
   fun _ => false,
   fun p => p = ["r", "Link"],
   fun _ => false,
   fun p => if p = ["r"] then [["r", "Link"]] else [],
   fun p => if p = ["r"] then [⟨["r"], ["Link"], []⟩] else []⟩

/-- A filesystem where only `r/exists` exists; used by the conflict and
executor claims. -/
def fs_exists : FS :=
  ⟨id, fun p => p = ["r", "exists"], fun _ => false, fun _ => false,
   fun _ => [], fun _ => []⟩

/-! ## Claims -/

/-- C3 counterexample: with slugify enabled and extension preservation on,
the pipeline operating on the file stem `"v 1.2"` *keeps* the dot (the slug
whitelist always contains `.`), so the stem is not freed of dots as the
claim states: the file `"v 1.2.txt"` becomes `"v_1.2.txt"`, the transformed
stem still containing a dot. -/
theorem C3_counterexample :
    apply_transformations slug_lower_und_opts "v 1.2" true = "v_1.2" ∧
    '.' ∈ ("v_1.2" : String).data ∧
    compute_new_name_for_path fs_flat slug_lower_und_opts ["r", "v 1.2.txt"]
      = "v_1.2.txt" := by
  refine ⟨by decide, by decide, by decide⟩

/-- C3 (amended): the slug whitelist retains the dot unconditionally —
`slugify_name` is always invoked with `keep_dots = True`, and the
`keep_extension` flag has no effect whatsoever on `apply_transformations`
(the source declares and never reads it), so a stem is slugged exactly like
a full name and may keep its dots (witnessed by the stem `"a.b"`). -/
theorem C3_keep_dots_unconditional :
    (∀ (opts : RenameOpts) (name : String) (b₁ b₂ : Bool),
      apply_transformations opts name b₁ = apply_transformations opts name b₂) ∧
    apply_transformations slug_lower_und_opts "a.b" true = "a.b" := by
  exact ⟨fun _ _ _ _ => rfl, by decide⟩

/-- C5: both branches of the plan builder emit a plan only when the
transformed name differs from the original: every emitted plan's
destination name differs from its source name, and the transformed source
name differs from the original name.  (Re-running the builder without
executing is the same pure function on the same filesystem, so the plan
set cannot grow.) -/
theorem C5_no_op_exclusion (fs : FS) (root : FPath) (opts : RenameOpts)
    (recursive incF incD incH : Bool) (prune_names : List String)
    (plan : RenamePlan)
    (h : plan ∈ (build_rename_plans fs root opts recursive incF incD incH
      prune_names).1) :
    last_seg plan.dst ≠ last_seg plan.src ∧
    compute_new_name_for_path fs opts plan.src ≠ last_seg plan.src := by
  obtain ⟨hdst, hne⟩ := mem_build_rename_plans h
  refine ⟨?_, hne⟩
  rw [hdst, last_seg_with_name]
  exact hne

/-- C5 witness: the directory `r/A` is planned as `r/a` by the
lowercase-only run, and indeed `"a" ≠ "A"`. -/
theorem C5_no_op_exclusion_witness :
    last_seg (["r", "a"] : FPath) ≠ last_seg (["r", "A"] : FPath) ∧
    compute_new_name_for_path fs_flat lower_opts ["r", "A"] ≠
      last_seg (["r", "A"] : FPath) :=
  C5_no_op_exclusion fs_flat ["r"] lower_opts false true true false []
    ⟨["r", "A"], ["r", "a"]⟩ (by decide)

/-- C8: every plan of either builder branch renames within one directory:
the destination's parent equals the source's parent, because the
destination is `src.with_name(new_name)`. -/
theorem C8_same_parent (fs : FS) (root : FPath) (opts : RenameOpts)
    (recursive incF incD incH : Bool) (prune_names : List String)
    (plan : RenamePlan)
    (h : plan ∈ (build_rename_plans fs root opts recursive incF incD incH
      prune_names).1) :
    plan.dst.dropLast = plan.src.dropLast := by
  obtain ⟨hdst, _⟩ := mem_build_rename_plans h
  rw [hdst, dropLast_with_name]

/-- C8 witness: the plan `r/B.txt → r/b.txt` of the lowercase-only run
keeps the parent `["r"]`. -/
theorem C8_same_parent_witness :
    (["r", "b.txt"] : FPath).dropLast = (["r", "B.txt"] : FPath).dropLast :=
  C8_same_parent fs_flat ["r"] lower_opts false true true false []
    ⟨["r", "B.txt"], ["r", "b.txt"]⟩ (by decide)

/-- Every plan is attempted exactly once: the success and failure counts of
`execute_plans` always sum to the number of plans, whatever the rename
outcomes. -/
theorem execute_plans_count {St : Type}
    (do_rename : St → RenamePlan → Option St) :
    ∀ (plans : List RenamePlan) (st : St),
      (execute_plans do_rename st plans).2.1 +
        (execute_plans do_rename st plans).2.2 = plans.length := by
  intro plans
  induction plans with
  | nil => intro st; rfl
  | cons p ps ih =>
    intro st
    unfold execute_plans
    cases h : do_rename st p with
    | some st' =>
      simp only [h, List.length_cons]
      have := ih st'
      omega
    | none =>
      simp only [h, List.length_cons]
      have := ih st
      omega

/-- C7: the executor is continue-on-error — every plan is attempted exactly
once regardless of earlier failures (success count plus failure count
equals the plan count), and an executing run (non-empty conflict-free plan
list, not dry, confirmed) exits with success exactly when the failure count
is zero. -/
theorem C7_executor_resilience {St : Type}
    (do_rename : St → RenamePlan → Option St) (st : St)
    (plans : List RenamePlan) (fs : FS)
    (hne : plans ≠ []) (hconf : detect_conflicts fs plans = []) :
    (execute_plans do_rename st plans).2.1 +
      (execute_plans do_rename st plans).2.2 = plans.length ∧
    ((main_after_planning fs do_rename st plans false true).1 = 0 ↔
      (execute_plans do_rename st plans).2.2 = 0) := by
  refine ⟨execute_plans_count do_rename plans st, ?_⟩
  by_cases herr : (execute_plans do_rename st plans).2.2 = 0
  · simp [main_after_planning, hne, hconf, herr]
  · simp [main_after_planning, hne, hconf, herr]

/-- C7 witness: a two-plan batch whose second rename fails still attempts
both (1 success + 1 failure = 2) and the run exits non-zero. -/
theorem C7_executor_resilience_witness :
    ((execute_plans (fun (n : Nat) _ => if n = 0 then some 1 else none) 0
        [⟨["r", "a"], ["r", "b"]⟩, ⟨["r", "c"], ["r", "d"]⟩]).2.1 +
      (execute_plans (fun (n : Nat) _ => if n = 0 then some 1 else none) 0
        [⟨["r", "a"], ["r", "b"]⟩, ⟨["r", "c"], ["r", "d"]⟩]).2.2 = 2) ∧
    ((main_after_planning fs_exists
        (fun (n : Nat) _ => if n = 0 then some 1 else none) 0
        [⟨["r", "a"], ["r", "b"]⟩, ⟨["r", "c"], ["r", "d"]⟩] false true).1 = 0 ↔
      (execute_plans (fun (n : Nat) _ => if n = 0 then some 1 else none) 0
        [⟨["r", "a"], ["r", "b"]⟩, ⟨["r", "c"], ["r", "d"]⟩]).2.2 = 0) :=
  C7_executor_resilience (fun (n : Nat) _ => if n = 0 then some 1 else none) 0
    [⟨["r", "a"], ["r", "b"]⟩, ⟨["r", "c"], ["r", "d"]⟩] fs_exists
    (by decide) (by decide)

/-- C9 counterexample: with extension preservation on and exactly slugify
and lowercase enabled (space-to-underscore *not* enabled), the slug
algorithm replaces the space with a hyphen, so `"My Report.PDF"` becomes
`"my-report.PDF"`, not the claimed `"my_report.PDF"`. -/
theorem C9_counterexample :
    compute_new_name_for_path fs_flat slug_lower_opts ["r", "My Report.PDF"]
      = "my-report.PDF" ∧
    ("my-report.PDF" : String) ≠ "my_report.PDF" := by
  refine ⟨by decide, by decide⟩

/-- C9 (amended): with extension preservation on and slugify, lowercase
*and* space-to-underscore enabled, the stem `"My Report"` transforms to
`"my_report"` and the file name becomes `"my_report.PDF"`, the extension's
case untouched. -/
theorem C9_extension_preservation :
    apply_transformations slug_lower_und_opts "My Report" true = "my_report" ∧
    compute_new_name_for_path fs_flat slug_lower_und_opts
      ["r", "My Report.PDF"] = "my_report.PDF" := by
  refine ⟨by decide, by decide⟩

/-- C10: the neutral pipeline (no pattern, slugify off, space-to-underscore
off, lowercase off, empty prefix and suffix) still strips leading and
trailing whitespace and falls back to `"item"` on an all-whitespace name —
it is not the identity — and a whitespace-edged name (`" notes"`) still
produces a rename plan in the builder. -/
theorem C10_neutral_pipeline :
    (∀ (name : String) (b : Bool),
      apply_transformations neutral_opts name b =
        if py_strip name = "" then "item" else py_strip name) ∧
    apply_transformations neutral_opts "   " false = "item" ∧
    build_plans_nonrec fs_flat ["r"] neutral_opts true true false =
      [⟨["r", " notes"], ["r", "notes"]⟩] := by
  refine ⟨?_, by decide, by decide⟩
  intro name b
  simp [apply_transformations, neutral_opts]

/-- C4: the pattern-substitution stage.  (1) The engine's template
expansion agrees with the specified one: each group reference contributes
exactly the referenced group's capture, an unmatched group contributing the
empty string.  (2) The stage is total for every configured pattern and
replacement: either the substitution succeeds and the stage returns its
result, or the substitution is a `re.error` and the stage returns the name
unchanged (the source's `except re.error: pass`).  (3) End to end, an
unmatched group substitutes as empty: the pattern `(a)|(b)` with template
`[\1][\2]` sends the name `"b"` to `"[][b]"`. -/
theorem C4_pattern_substitution :
    (∀ (caps : PyRe.Caps) (ts : List PyRe.Tok),
      PyRe.expand caps ts = PyRe.spec_expand caps ts) ∧
    (∀ (pat : String) (to_opt : Option String) (name : String),
      (PyRe.py_re_sub pat (to_opt.getD "") name = .error () →
        regex_stage pat to_opt name = name) ∧
      (∀ s, PyRe.py_re_sub pat (to_opt.getD "") name = .ok s →
        regex_stage pat to_opt name = s)) ∧
    apply_transformations re_demo_opts "b" false = "[][b]" := by
  refine ⟨PyRe.expand_eq_spec_expand, ?_, by decide⟩
  intro pat to_opt name
  constructor
  · intro h
    unfold regex_stage
    rw [h]
  · intro s h
    unfold regex_stage
    rw [h]

/-- C4 witness: the invalid pattern `"("` is a `re.error`, and the stage
indeed returns the name `"a"` unchanged. -/
theorem C4_pattern_substitution_witness :
    regex_stage "(" none "a" = "a" :=
  (C4_pattern_substitution.2.1 "(" none "a").1 rfl

/-- The recursive branch's output is sorted by the executor order. -/
theorem build_plans_rec_sorted (fs : FS) (root : FPath) (opts : RenameOpts)
    (incF incD incH : Bool) (prune_names : List String) :
    List.Sorted (rec_le fs)
      (build_plans_rec fs root opts incF incD incH prune_names).1 :=
  List.sorted_insertionSort _ _

/-- C2 counterexample: in non-recursive mode the builder sorts purely by
lowercased source path, so a directory-kind plan (`r/A`, a directory) comes
before a file-kind plan (`r/B.txt`, a file) — files do *not* all precede
directories in that mode. -/
theorem C2_counterexample :
    (build_rename_plans fs_flat ["r"] lower_opts false true true false []).1 =
      [⟨["r", " notes"], ["r", "notes"]⟩, ⟨["r", "A"], ["r", "a"]⟩,
       ⟨["r", "B.txt"], ["r", "b.txt"]⟩] ∧
    fs_flat.is_dir ["r", "A"] = true ∧
    fs_flat.is_file ["r", "B.txt"] = true := by
  refine ⟨by decide, by decide, by decide⟩

/-- C2 (amended): for the *recursive* branch, the executor order is sorted
by `sort_key`; consequently, for any two plan positions `i < j`:
(a) if the earlier is a directory plan so is the later (files precede
directories), (b) a directory plan at `i` has at least as many source
segments as the plan at `j` (deeper directories first), and (c) two plans
of the same kind and depth appear in case-insensitive lexicographic order
of source path.  In particular, in the tree `root/X` with file
`root/X/f.txt`, `f.txt` is renamed before `X`.  (In non-recursive mode the
order is the lowercased source path only.) -/
theorem C2_executor_order (fs : FS) (root : FPath) (opts : RenameOpts)
    (incF incD incH : Bool) (prune_names : List String) (i j : Nat)
    (hi : i < (build_plans_rec fs root opts incF incD incH prune_names).1.length)
    (hj : j < (build_plans_rec fs root opts incF incD incH prune_names).1.length)
    (hij : i < j) :
    ((fs.is_dir ((build_plans_rec fs root opts incF incD incH
          prune_names).1.get ⟨i, hi⟩).src = true →
        fs.is_dir ((build_plans_rec fs root opts incF incD incH
          prune_names).1.get ⟨j, hj⟩).src = true) ∧
      (fs.is_dir ((build_plans_rec fs root opts incF incD incH
          prune_names).1.get ⟨i, hi⟩).src = true →
        ((build_plans_rec fs root opts incF incD incH
          prune_names).1.get ⟨j, hj⟩).src.length ≤
        ((build_plans_rec fs root opts incF incD incH
          prune_names).1.get ⟨i, hi⟩).src.length) ∧
      (fs.is_dir ((build_plans_rec fs root opts incF incD incH
          prune_names).1.get ⟨i, hi⟩).src =
          fs.is_dir ((build_plans_rec fs root opts incF incD incH
            prune_names).1.get ⟨j, hj⟩).src →
        ((build_plans_rec fs root opts incF incD incH
          prune_names).1.get ⟨i, hi⟩).src.length =
          ((build_plans_rec fs root opts incF incD incH
            prune_names).1.get ⟨j, hj⟩).src.length →
        str_le
          (lower_str (path_str ((build_plans_rec fs root opts incF incD incH
            prune_names).1.get ⟨i, hi⟩).src))
          (lower_str (path_str ((build_plans_rec fs root opts incF incD incH
            prune_names).1.get ⟨j, hj⟩).src)))) ∧
    build_plans_rec fs_tree ["root"] suffix_opts true true false [] =
      ([⟨["root", "X", "f.txt"], ["root", "X", "f_x.txt"]⟩,
        ⟨["root", "X"], ["root", "X_x"]⟩], []) := by
  have hs := build_plans_rec_sorted fs root opts incF incD incH prune_names
  have hp := List.pairwise_iff_getElem.mp hs i j hi hj hij
  simp only [List.get_eq_getElem]
  have ha := hp
  unfold rec_le key_le sort_key at ha
  refine ⟨⟨?_, ?_, ?_⟩, by decide⟩
  · intro hdi
    by_cases hdb : fs.is_dir ((build_plans_rec fs root opts incF incD incH
        prune_names).1[j]).src = true
    · exact hdb
    · exfalso
      simp only [hdi, hdb, if_pos, if_neg, Bool.false_eq_true, if_true,
        if_false] at ha
      rcases ha with h | ⟨h, _⟩ <;> omega
  · intro hdi
    by_cases hdb : fs.is_dir ((build_plans_rec fs root opts incF incD incH
        prune_names).1[j]).src = true
    · simp only [hdi, hdb, if_true] at ha
      rcases ha with h | ⟨_, h | ⟨h, _⟩⟩ <;> omega
    · exfalso
      simp only [hdi, hdb, Bool.false_eq_true, if_true, if_false] at ha
      rcases ha with h | ⟨h, _⟩ <;> omega
  · intro hkind hlen
    by_cases hdi : fs.is_dir ((build_plans_rec fs root opts incF incD incH
        prune_names).1[i]).src = true
    · have hdb := hkind ▸ hdi
      simp only [hdi, hdb, if_true, hlen] at ha
      rcases ha with h | ⟨_, h | ⟨_, h⟩⟩
      · omega
      · omega
      · exact h
    · have hdb : ¬ fs.is_dir ((build_plans_rec fs root opts incF incD incH
          prune_names).1[j]).src = true := by rw [← hkind]; exact hdi
      simp only [hdi, hdb, Bool.false_eq_true, if_false, hlen] at ha
      rcases ha with h | ⟨_, h | ⟨_, h⟩⟩
      · omega
      · omega
      · exact h

/-- C2 witness: in the two-directory tree, both sorted plans are
directory plans, so property (a) holds with its premise discharged at the
first position. -/
theorem C2_executor_order_witness :
    fs_two_dirs.is_dir
      ((build_plans_rec fs_two_dirs ["root"] suffix_opts true true false
        []).1.get ⟨1, by decide⟩).src = true :=
  (C2_executor_order fs_two_dirs ["root"] suffix_opts true true false [] 0 1
    (by decide) (by decide) (by decide)).1.1 (by decide)

/-- C6 counterexample: the *non-recursive* branch performs no
canonical-containment check at all: the child `r/Link` resolves to
`etc/x`, outside the root, yet it is planned — and no warning is
emitted. -/
theorem C6_counterexample :
    is_within_root fs_escape (fs_escape.resolve ["r"]) ["r", "Link"] = false ∧
    build_rename_plans fs_escape ["r"] lower_opts false true true false [] =
      ([⟨["r", "Link"], ["r", "link"]⟩], []) := by
  refine ⟨by decide, by decide⟩

/-- C6 (amended): in the *recursive* branch every plan's source resolves
inside the root; every candidate (a file when files are included, a
post-prune directory when directories are included) that passes the hidden
filter but fails the containment check produces its warning in the
returned warning list; and no plan is ever emitted for a path that fails
the containment check. -/
theorem C6_recursive_containment (fs : FS) (root : FPath) (opts : RenameOpts)
    (incF incD incH : Bool) (prune_names : List String) :
    (∀ plan ∈ (build_plans_rec fs root opts incF incD incH prune_names).1,
      is_within_root fs (fs.resolve root) plan.src = true) ∧
    (∀ t ∈ fs.walk (fs.resolve root), ∀ (nm : String) (w : String),
      ((incF = true ∧ nm ∈ t.filenames) ∨
        (incD = true ∧ nm ∈ prune_dirs_filter t.dirnames prune_names incH)) →
      rec_warn fs incH (fs.resolve root) t.dirpath nm = some w →
      w ∈ (build_plans_rec fs root opts incF incD incH prune_names).2) ∧
    (∀ plan ∈ (build_plans_rec fs root opts incF incD incH prune_names).1,
      ∀ p : FPath, is_within_root fs (fs.resolve root) p = false →
        plan.src ≠ p) := by
  have hwithin : ∀ plan ∈ (build_plans_rec fs root opts incF incD incH
      prune_names).1, is_within_root fs (fs.resolve root) plan.src = true := by
    intro plan h
    obtain ⟨t, _, nm, hc⟩ := mem_build_plans_rec h
    exact (rec_candidate_some hc).2.2.2
  refine ⟨hwithin, ?_, ?_⟩
  · intro t ht nm w hmem hw
    show w ∈ (build_plans_rec fs root opts incF incD incH prune_names).2
    unfold build_plans_rec
    rw [List.mem_flatten]
    refine ⟨triple_warns fs incF incD incH prune_names (fs.resolve root) t,
      List.mem_map.mpr ⟨t, ht, rfl⟩, ?_⟩
    unfold triple_warns
    rw [List.mem_append]
    rcases hmem with ⟨hf, hnm⟩ | ⟨hd, hnm⟩
    · exact Or.inl (by rw [if_pos hf]; exact List.mem_filterMap.mpr ⟨nm, hnm, hw⟩)
    · exact Or.inr (by rw [if_pos hd]; exact List.mem_filterMap.mpr ⟨nm, hnm, hw⟩)
  · intro plan h p hout heq
    have := hwithin plan h
    rw [heq] at this
    rw [this] at hout
    exact Bool.noConfusion hout

/-- C6 witness: in the escape tree, the out-of-root warning for `r/Link`
(a post-prune directory candidate) lands in the recursive builder's warning
list. -/
theorem C6_recursive_containment_witness :
    out_of_root_warning ["r", "Link"] ∈
      (build_plans_rec fs_escape ["r"] lower_opts true true false []).2 :=
  (C6_recursive_containment fs_escape ["r"] lower_opts true true false
    []).2.1 ⟨["r"], ["Link"], []⟩ (by decide) "Link"
    (out_of_root_warning ["r", "Link"]) (Or.inr ⟨rfl, by decide⟩) (by decide)

/-! ## Characterising the conflict detector (towards C1) -/

/-- A plan conflicts with the first-seen map: its canonical destination key
is bound to a source with a different canonical path. -/
def mconf (fs : FS) (seen : List (String × FPath)) (b : RenamePlan) : Prop :=
  ∃ q, seen.lookup (res_key fs b.dst) = some q ∧
    res_key fs q ≠ res_key fs b.src

/-- The target-exists condition of a plan. -/
def e2p (fs : FS) (b : RenamePlan) : Prop :=
  fs.path_exists b.dst = true ∧ fs.resolve b.dst ≠ fs.resolve b.src

/-- Two plans collide: distinct canonical sources, equal canonical
destinations. -/
def pairc (fs : FS) (a b : RenamePlan) : Prop :=
  res_key fs a.src ≠ res_key fs b.src ∧ res_key fs a.dst = res_key fs b.dst

instance (fs : FS) (seen : List (String × FPath)) (b : RenamePlan) :
    Decidable (mconf fs seen b) :=
  match h : seen.lookup (res_key fs b.dst) with
  | some q =>
    if hq : res_key fs q ≠ res_key fs b.src then
      .isTrue ⟨q, h, hq⟩
    else
      .isFalse (by
        rintro ⟨q', hq', hne⟩
        rw [h] at hq'
        exact hq (Option.some.inj hq' ▸ hne))
  | none =>
    .isFalse (by
      rintro ⟨q', hq', _⟩
      rw [h] at hq'
      exact Option.noConfusion hq')

theorem dc_e1_ne_nil_iff {fs : FS} {seen : List (String × FPath)}
    {b : RenamePlan} : dc_e1 fs seen b ≠ [] ↔ mconf fs seen b := by
  unfold dc_e1 mconf
  cases h : seen.lookup (res_key fs b.dst) with
  | some q =>
    by_cases hq : res_key fs q ≠ res_key fs b.src
    · simp [hq]
    · simp [hq]
  | none => simp

theorem dc_e2_ne_nil_iff {fs : FS} {b : RenamePlan} :
    dc_e2 fs b ≠ [] ↔ e2p fs b := by
  unfold dc_e2 e2p
  split_ifs with h
  · simp only [Bool.and_eq_true, decide_eq_true_eq] at h
    simp [h.1, h.2]
  · have hn : ¬ (fs.path_exists b.dst = true ∧
        fs.resolve b.dst ≠ fs.resolve b.src) := by
      rintro ⟨h1, h2⟩
      exact h (by simp [h1, h2])
    simp [hn]

theorem dc_upd_eq (fs : FS) (seen : List (String × FPath)) (p : RenamePlan) :
    dc_upd fs seen p =
      if mconf fs seen p then seen
      else (res_key fs p.dst, p.src) :: seen := by
  unfold dc_upd
  cases h : seen.lookup (res_key fs p.dst) with
  | some q =>
    by_cases h1 : res_key fs q ≠ res_key fs p.src
    · rw [if_pos ⟨q, h, h1⟩]
      simp [h1]
    · have hnm : ¬ mconf fs seen p := by
        rintro ⟨q', hq', hne⟩
        rw [h] at hq'
        exact h1 (Option.some.inj hq' ▸ hne)
      rw [if_neg hnm]
      simp [h1]
  | none =>
    have hnm : ¬ mconf fs seen p := by
      rintro ⟨q', hq', _⟩
      rw [h] at hq'
      exact Option.noConfusion hq'
    rw [if_neg hnm]

theorem pair_sublist_cons {a b p : RenamePlan} {ps : List RenamePlan} :
    [a, b].Sublist (p :: ps) ↔ [a, b].Sublist ps ∨ (a = p ∧ b ∈ ps) := by
  rw [List.sublist_cons_iff]
  constructor
  · rintro (h | ⟨r, hr, hsub⟩)
    · exact Or.inl h
    · obtain ⟨ha, hrest⟩ : a = p ∧ [b] = r := by
        cases hr
        exact ⟨rfl, rfl⟩
      subst ha
      rw [← hrest] at hsub
      exact Or.inr ⟨rfl, List.singleton_sublist.mp hsub⟩
  · rintro (h | ⟨rfl, hb⟩)
    · exact Or.inl h
    · exact Or.inr ⟨[b], rfl, List.singleton_sublist.mpr hb⟩

theorem mconf_upd_iff {fs : FS} {seen : List (String × FPath)}
    {p b : RenamePlan} (hnp : ¬ mconf fs seen p) :
    mconf fs (dc_upd fs seen p) b ↔ pairc fs p b ∨ mconf fs seen b := by
  rw [dc_upd_eq, if_neg hnp]
  by_cases hk : res_key fs b.dst = res_key fs p.dst
  · have hlook : ((res_key fs p.dst, p.src) :: seen).lookup (res_key fs b.dst)
        = some p.src := by
      simp [List.lookup, hk]
    constructor
    · rintro ⟨q, hq, hne⟩
      rw [hlook] at hq
      exact Or.inl ⟨Option.some.inj hq ▸ hne, hk.symm⟩
    · rintro (⟨hne, _⟩ | ⟨q, hq, hne⟩)
      · exact ⟨p.src, hlook, hne⟩
      · refine ⟨p.src, hlook, ?_⟩
        have hqp : res_key fs q = res_key fs p.src := by
          by_contra hqq
          exact hnp ⟨q, hk ▸ hq, hqq⟩
        exact hqp ▸ hne
  · have hlook : ((res_key fs p.dst, p.src) :: seen).lookup (res_key fs b.dst)
        = seen.lookup (res_key fs b.dst) := by
      have hbeq : (res_key fs b.dst == res_key fs p.dst) = false :=
        beq_eq_false_iff_ne.mpr hk
      simp [List.lookup, hbeq]
    constructor
    · rintro ⟨q, hq, hne⟩
      rw [hlook] at hq
      exact Or.inr ⟨q, hq, hne⟩
    · rintro (⟨_, hdst⟩ | ⟨q, hq, hne⟩)
      · exact absurd hdst.symm hk
      · exact ⟨q, hlook ▸ hq, hne⟩

theorem dc_go_ne_nil_iff (fs : FS) :
    ∀ (ps : List RenamePlan) (seen : List (String × FPath)),
      dc_go fs ps seen ≠ [] ↔
        ((∃ a b, [a, b].Sublist ps ∧ pairc fs a b) ∨
          (∃ b ∈ ps, mconf fs seen b) ∨ (∃ b ∈ ps, e2p fs b)) := by
  intro ps
  induction ps with
  | nil =>
    intro seen
    simp [dc_go]
  | cons p ps ih =>
    intro seen
    have hsplit : dc_go fs (p :: ps) seen ≠ [] ↔
        (dc_e1 fs seen p ≠ [] ∨ dc_e2 fs p ≠ [] ∨
          dc_go fs ps (dc_upd fs seen p) ≠ []) := by
      show dc_e1 fs seen p ++ dc_e2 fs p ++ dc_go fs ps (dc_upd fs seen p)
          ≠ [] ↔ _
      simp only [ne_eq, List.append_eq_nil]
      tauto
    rw [hsplit, dc_e1_ne_nil_iff, dc_e2_ne_nil_iff, ih (dc_upd fs seen p)]
    by_cases hmp : mconf fs seen p
    · apply iff_of_true
      · exact Or.inl hmp
      · exact Or.inr (Or.inl ⟨p, List.mem_cons_self p ps, hmp⟩)
    · have hrw : ∀ b, mconf fs (dc_upd fs seen p) b ↔
          pairc fs p b ∨ mconf fs seen b := fun b => mconf_upd_iff hmp
      constructor
      · rintro (h | h | hpair | hm | he)
        · exact absurd h hmp
        · exact Or.inr (Or.inr ⟨p, List.mem_cons_self p ps, h⟩)
        · obtain ⟨a, b, hsub, hc⟩ := hpair
          exact Or.inl ⟨a, b, (pair_sublist_cons).mpr (Or.inl hsub), hc⟩
        · obtain ⟨b, hb, hm'⟩ := hm
          rcases (hrw b).mp hm' with hc | hm''
          · exact Or.inl ⟨p, b, (pair_sublist_cons).mpr (Or.inr ⟨rfl, hb⟩), hc⟩
          · exact Or.inr (Or.inl ⟨b, List.mem_cons_of_mem p hb, hm''⟩)
        · obtain ⟨b, hb, he'⟩ := he
          exact Or.inr (Or.inr ⟨b, List.mem_cons_of_mem p hb, he'⟩)
      · rintro (hpair | hm | he)
        · obtain ⟨a, b, hsub, hc⟩ := hpair
          rcases (pair_sublist_cons).mp hsub with hsub' | ⟨rfl, hb⟩
          · exact Or.inr (Or.inr (Or.inl ⟨a, b, hsub', hc⟩))
          · exact Or.inr (Or.inr (Or.inr (Or.inl
              ⟨b, hb, (hrw b).mpr (Or.inl hc)⟩)))
        · obtain ⟨b, hb, hm'⟩ := hm
          rcases List.mem_cons.mp hb with rfl | hb'
          · exact absurd hm' hmp
          · exact Or.inr (Or.inr (Or.inr (Or.inl
              ⟨b, hb', (hrw b).mpr (Or.inr hm')⟩)))
        · obtain ⟨b, hb, he'⟩ := he
          rcases List.mem_cons.mp hb with rfl | hb'
          · exact Or.inr (Or.inl he')
          · exact Or.inr (Or.inr (Or.inr (Or.inr ⟨b, hb', he'⟩)))

theorem detect_conflicts_ne_nil_iff (fs : FS) (plans : List RenamePlan) :
    detect_conflicts fs plans ≠ [] ↔
      ((∃ a b, [a, b].Sublist plans ∧ pairc fs a b) ∨
        (∃ b ∈ plans, e2p fs b)) := by
  unfold detect_conflicts
  rw [dc_go_ne_nil_iff]
  have hm : ∀ b : RenamePlan, ¬ mconf fs [] b := by
    rintro b ⟨q, hq, _⟩
    simp [List.lookup] at hq
  constructor
  · rintro (h | ⟨b, _, hm'⟩ | h)
    · exact Or.inl h
    · exact absurd hm' (hm b)
    · exact Or.inr h
  · rintro (h | h)
    · exact Or.inl h
    · exact Or.inr (Or.inr h)

/-- C1: the conflict report is non-empty exactly when either two plans
(one occurring after the other) have distinct canonical source paths and
the same canonical destination path, or some plan's destination exists on
the filesystem and resolves differently from the plan's own source
(self-renames exempt); and whenever the report is non-empty the run exits
with code 3 before attempting any rename — the filesystem state is
returned untouched. -/
theorem C1_conflict_detection (fs : FS) (plans : List RenamePlan) :
    (detect_conflicts fs plans ≠ [] ↔
      ((∃ a b, [a, b].Sublist plans ∧
          res_key fs a.src ≠ res_key fs b.src ∧
          res_key fs a.dst = res_key fs b.dst) ∨
        (∃ plan ∈ plans, fs.path_exists plan.dst = true ∧
          fs.resolve plan.dst ≠ fs.resolve plan.src))) ∧
    (∀ (St : Type) (do_rename : St → RenamePlan → Option St) (st : St)
        (dry_run confirmed : Bool),
      detect_conflicts fs plans ≠ [] →
      main_after_planning fs do_rename st plans dry_run confirmed = (3, st)) := by
  constructor
  · exact detect_conflicts_ne_nil_iff fs plans
  · intro St do_rename st dry_run confirmed hne
    have hplans : plans ≠ [] := by
      rintro rfl
      exact hne rfl
    unfold main_after_planning
    rw [if_neg hplans, if_pos hne]

/-- C1 witness: two sources collapsing onto `r/c` are a conflict, and the
run aborts with exit code 3 and an unchanged state. -/
theorem C1_conflict_detection_witness :
    main_after_planning fs_exists (fun (n : Nat) _ => some n) 0
      [⟨["r", "a"], ["r", "c"]⟩, ⟨["r", "b"], ["r", "c"]⟩] false true
      = (3, 0) :=
  (C1_conflict_detection fs_exists
    [⟨["r", "a"], ["r", "c"]⟩, ⟨["r", "b"], ["r", "c"]⟩]).2
    Nat (fun n _ => some n) 0 false true (by decide)

end Renomeador


